import Mathlib

/-!
Shallow embedding of the interactive render-orchestration layer of
`shugraphics/mpr` (`src/gui/main.cpp`), with theorems settling the
specification claims about it.

Geometry is modelled over the real numbers: the C++ code works in
single-precision floats, and each algebraic identity proved here is exact
over ℝ, hence holds up to floating-point rounding in the implementation.
-/

namespace Mpr

/-- A 3-component vector, standing in for `Eigen::Vector3f`. -/
structure Vec3 where
  x : ℝ
  y : ℝ
  z : ℝ

instance : Add Vec3 := ⟨fun a b => ⟨a.x + b.x, a.y + b.y, a.z + b.z⟩⟩
instance : Sub Vec3 := ⟨fun a b => ⟨a.x - b.x, a.y - b.y, a.z - b.z⟩⟩
instance : SMul ℝ Vec3 := ⟨fun r a => ⟨r * a.x, r * a.y, r * a.z⟩⟩

/-- The interactive camera state of `main.cpp`:
`view_center`, `view_scale`, `view_pitch`, `view_yaw`. -/
structure ViewState where
  center : Vec3
  scale : ℝ
  pitch : ℝ
  yaw : ℝ

/-- The initial camera state of `main.cpp` (lines 117-120):
center `(0,0,0)`, scale `2`, pitch `0`, yaw `0`. -/
def initView : ViewState := ⟨⟨0, 0, 0⟩, 2, 0, 0⟩

/-- `io.DisplaySize`. -/
structure DisplaySize where
  w : ℝ
  h : ℝ

/-- Rotation about the z (up) axis, `Eigen::AngleAxisf(a, UnitZ())`. -/
noncomputable def rotZ (a : ℝ) (v : Vec3) : Vec3 :=
  ⟨Real.cos a * v.x - Real.sin a * v.y,
   Real.sin a * v.x + Real.cos a * v.y,
   v.z⟩

/-- Rotation about the x (horizontal) axis, `Eigen::AngleAxisf(a, UnitX())`. -/
noncomputable def rotX (a : ℝ) (v : Vec3) : Vec3 :=
  ⟨v.x,
   Real.cos a * v.y - Real.sin a * v.z,
   Real.sin a * v.y + Real.cos a * v.z⟩

/-- The `model` affine transform built by `update_mats` (lines 126-130):
`translate(center) ∘ scale(scale) ∘ rotZ(yaw) ∘ rotX(pitch)`
(the Eigen `translate`/`scale`/`rotate` calls post-multiply). -/
noncomputable def modelApply (vs : ViewState) (p : Vec3) : Vec3 :=
  vs.center + vs.scale • rotZ vs.yaw (rotX vs.pitch p)

/-- The `view` affine transform built by `update_mats` (lines 132-135):
scale by `(s, -s, 1)` with `s = 2 / max w h`, pre-composed with a
translation by `(-w/2, -h/2, 0)` of input points. -/
noncomputable def viewApply (d : DisplaySize) (p : Vec3) : Vec3 :=
  ⟨(2 / max d.w d.h) * (p.x - d.w / 2),
   -(2 / max d.w d.h) * (p.y - d.h / 2),
   p.z⟩

/-- The screen-to-world map of the code: `model * view * p`, exactly as the pan
and zoom handlers compute "position in world coordinates"
(lines 192-193, 216, 222; consistently, line 428 maps world-space points to
screen with `(model * view).inverse()`). -/
noncomputable def worldOf (vs : ViewState) (d : DisplaySize) (p : Vec3) : Vec3 :=
  modelApply vs (viewApply d p)

/-- The pan handler (lines 189-196):
`view_center += (model * view * (mouse - drag)) - (model * view * mouse)`. -/
noncomputable def pan (vs : ViewState) (d : DisplaySize) (mouse drag : Vec3) : ViewState :=
  { vs with center := vs.center + (worldOf vs d (mouse - drag) - worldOf vs d mouse) }

/-- The scale update of the scroll handler (line 219):
`view_scale *= powf(1.01f, scroll)`. -/
noncomputable def zoomScaled (vs : ViewState) (scroll : ℝ) : ViewState :=
  { vs with scale := vs.scale * (1.01 : ℝ) ^ scroll }

/-- The scroll/zoom handler (lines 209-227): record the world position of the
cursor, rescale, record it again, and shift `view_center` by the difference
so that the world position under the cursor is unchanged. -/
noncomputable def zoom (vs : ViewState) (d : DisplaySize) (cursor : Vec3) (scroll : ℝ) : ViewState :=
  { zoomScaled vs scroll with
    center := (zoomScaled vs scroll).center -
      (worldOf (zoomScaled vs scroll) d cursor - worldOf vs d cursor) }

/-- Truncation toward zero, as the C `fmod` uses on the quotient. -/
noncomputable def rtrunc (r : ℝ) : ℝ :=
  if 0 ≤ r then (⌊r⌋ : ℝ) else (⌈r⌉ : ℝ)

/-- The C `fmod x m = x - m * trunc (x / m)`: the result has the magnitude of a
remainder and the SIGN OF `x`, not necessarily the sign of `m`. -/
noncomputable def fmod (x m : ℝ) : ℝ :=
  x - m * rtrunc (x / m)

/-- The rotate/right-drag handler (lines 198-206):
`yaw -= dx/100; pitch -= dy/100; pitch = fmax(-pi/2, pitch);
pitch = fmin(pi/2, pitch); yaw = fmod(yaw, 2*pi)`. -/
noncomputable def rotate (vs : ViewState) (dx dy : ℝ) : ViewState :=
  { vs with
    yaw := fmod (vs.yaw - dx / 100) (2 * Real.pi)
    pitch := min (Real.pi / 2) (max (-(Real.pi / 2)) (vs.pitch - dy / 100)) }

/-- A whole sequence of rotate events, applied in order. -/
noncomputable def rotateAll (vs : ViewState) (events : List (ℝ × ℝ)) : ViewState :=
  events.foldl (fun st e => rotate st e.1 e.2) vs

/-- The screen-to-world map as the spec words it (§4.2): `worldOf(p) = inverse(model · view) · p`,
written out as the composition of the two inverse affine maps
`view⁻¹ ∘ model⁻¹`.  This definition follows the words of the SPEC, for comparison
with `worldOf`, which follows the code. -/
noncomputable def specWorldOf (vs : ViewState) (d : DisplaySize) (p : Vec3) : Vec3 :=
  let q := rotX (-vs.pitch) (rotZ (-vs.yaw) ((1 / vs.scale) • (p - vs.center)))
  ⟨q.x / (2 / max d.w d.h) + d.w / 2,
   q.y / (-(2 / max d.w d.h)) + d.h / 2,
   q.z⟩

/-- The pan update as the spec states it, with the inverse-based `worldOf`:
`center += specWorldOf(mouse - drag) - specWorldOf(mouse)`.  This definition
follows the words of the SPEC, for comparison with `pan`, which follows the code. -/
noncomputable def specPan (vs : ViewState) (d : DisplaySize) (mouse drag : Vec3) : ViewState :=
  { vs with center := vs.center + (specWorldOf vs d (mouse - drag) - specWorldOf vs d mouse) }

/-- A compiled scene shape (`struct Shape`, main.cpp lines 38-41): the
GPU-resident tape together with the source expression tree it was built
from. -/
structure Shape (Expr Tape : Type) where
  tape : Tape
  tree : Expr

/-- The key list of an association-list map (`std::map` keys; identities are
opaque, modelled as naturals). -/
def keys {α : Type} (l : List (ℕ × α)) : List ℕ :=
  l.map Prod.fst

/-- `std::map::find`, on the association-list model: the value bound to `k`,
if any (keys are unique in a `std::map`, so first match suffices). -/
def mfind {α : Type} (l : List (ℕ × α)) (k : ℕ) : Option α :=
  match l with
  | [] => none
  | p :: t => if p.1 = k then some p.2 else mfind t k

/-- The erase loop of the synchronization block (lines 267-275): keep exactly
the owned entries whose identity is still in `interpreter.shapes`. -/
def eraseStale {Expr Tape : Type} (owned : List (ℕ × Shape Expr Tape))
    (live : List (ℕ × Expr)) : List (ℕ × Shape Expr Tape) :=
  owned.filter (fun p => (mfind live p.1).isSome)

/-- The identities whose entries the erase loop removes; each removal destroys
the owned `Shape` (releasing its tape) exactly when it appears here. -/
def releasedIds {Expr Tape : Type} (owned : List (ℕ × Shape Expr Tape))
    (live : List (ℕ × Expr)) : List ℕ :=
  (owned.filter (fun p => (mfind live p.1).isNone)).map Prod.fst

/-- The creation loop (lines 277-282): for each live identity not already
owned, compile its expression into a tape and build the new entry
`Shape s = \x7b mpr::Tape(t.second), t.second \x7d`. -/
def newEntries {Expr Tape : Type} (compile : Expr → Tape)
    (owned : List (ℕ × Shape Expr Tape)) (live : List (ℕ × Expr)) :
    List (ℕ × Shape Expr Tape) :=
  (live.filter (fun q => (mfind owned q.1).isNone)).map
    (fun q => (q.1, Shape.mk (compile q.2) q.2))

/-- The identities the creation loop compiles; `mpr::Tape` is constructed
exactly once per identity appearing here. -/
def compiledIds {Expr Tape : Type} (owned : List (ℕ × Shape Expr Tape))
    (live : List (ℕ × Expr)) : List ℕ :=
  (live.filter (fun q => (mfind owned q.1).isNone)).map Prod.fst

/-- The whole synchronization step (lines 264-283): erase stale entries, then
insert newly compiled ones; entries for identities that stay live are left
untouched. -/
def synchronize {Expr Tape : Type} (compile : Expr → Tape)
    (owned : List (ℕ × Shape Expr Tape)) (live : List (ℕ × Expr)) :
    List (ℕ × Shape Expr Tape) :=
  eraseStale owned live ++ newEntries compile owned live

/-- Modelled from the spec: `mpr::Tape` construction (tape.hpp/tape.cpp, code
of this repository not under src/) may fail for a single shape; §4.1 requires
the failing identity to be reported and omitted from the live compiled set
for the frame, with every other entry unaffected.  The creation loop with a
fallible compiler, `none` meaning failure. -/
def newEntriesF {Expr Tape : Type} (compileF : Expr → Option Tape)
    (owned : List (ℕ × Shape Expr Tape)) :
    List (ℕ × Expr) → List (ℕ × Shape Expr Tape)
  | [] => []
  | q :: t =>
    if (mfind owned q.1).isNone then
      match compileF q.2 with
      | some tp => (q.1, Shape.mk tp q.2) :: newEntriesF compileF owned t
      | none => newEntriesF compileF owned t
    else newEntriesF compileF owned t

/-- Modelled from the spec: the identities whose compilation fails during the
creation loop and which are therefore reported and omitted for the frame. -/
def failedIds {Expr Tape : Type} (compileF : Expr → Option Tape)
    (owned : List (ℕ × Shape Expr Tape)) : List (ℕ × Expr) → List ℕ
  | [] => []
  | q :: t =>
    if (mfind owned q.1).isNone then
      match compileF q.2 with
      | some _ => failedIds compileF owned t
      | none => q.1 :: failedIds compileF owned t
    else failedIds compileF owned t

/-- Modelled from the spec: the synchronization step with a fallible
compiler. -/
def synchronizeF {Expr Tape : Type} (compileF : Expr → Option Tape)
    (owned : List (ℕ × Shape Expr Tape)) (live : List (ℕ × Expr)) :
    List (ℕ × Shape Expr Tape) :=
  eraseStale owned live ++ newEntriesF compileF owned live

/-- The shape render loop of one frame (lines 342-410): `append` starts the
frame as `false`, each shape is published with the current flag
(`copy_to_texture(..., append, ...)`), and the flag is set to `true` at the
end of each iteration. -/
def frameCallsAux {α : Type} (append : Bool) : List α → List (α × Bool)
  | [] => []
  | s :: rest => (s, append) :: frameCallsAux true rest

/-- One frame of publish calls: `bool append = false;` is declared afresh
inside the main loop (line 342), so every frame starts with `false`. -/
def frameCalls {α : Type} (shapes : List α) : List (α × Bool) :=
  frameCallsAux false shapes

/-- A run of consecutive frames; the flag never leaks across frames because
it is a per-frame local. -/
def runFrames {α : Type} (frames : List (List α)) : List (List (α × Bool)) :=
  frames.map frameCalls

/-- The 2D sub-matrix extraction of the PLANE render path (lines 358-363):
`mat2d.block<2,2>(0,0) = mat.block<2,2>(0,0)`,
`mat2d.block<2,1>(0,2) = mat.block<2,1>(0,3)`,
`mat2d.block<1,2>(2,0) = mat.block<1,2>(3,0)`,
`mat2d.block<1,1>(2,2) = mat.block<1,1>(3,3)`. -/
def mat2dOf (mat : Matrix (Fin 4) (Fin 4) ℝ) : Matrix (Fin 3) (Fin 3) ℝ :=
  Matrix.of fun i j =>
    if hi : (i : ℕ) < 2 then
      if hj : (j : ℕ) < 2 then mat ⟨i, by omega⟩ ⟨j, by omega⟩
      else mat ⟨i, by omega⟩ 3
    else
      if hj : (j : ℕ) < 2 then mat 3 ⟨j, by omega⟩
      else mat 3 3

/-- The render context, `mpr::Context`.  Modelled from the spec: the
constructor of `mpr::Context` (context.hpp/context.cpp, code of this
repository not under src/) allocates its working buffers freshly at the
requested size; `alloc_id` models the allocation identity, distinct for
every construction. -/
structure Context where
  image_size_px : ℕ
  alloc_id : ℕ

/-- Construction `mpr::Context(render_size)`: a context of the requested
size whose buffers belong to a brand-new allocation. -/
def freshContext (n : ℕ) (old : Context) : Context :=
  ⟨n, old.alloc_id + 1⟩

/-- The per-frame resize check (lines 314-317):
`if (render_size != ctx.image_size_px) ctx = mpr::Context(render_size);`. -/
def resizeStep (ctx : Context) (render_size : ℕ) : Context :=
  if render_size ≠ ctx.image_size_px then freshContext render_size ctx else ctx

/-- The context received by each per-shape render call of the frame: the
resize check runs in the Settings block, before the shape loop, so every
render call of the frame sees the post-resize context. -/
def frameContexts {α : Type} (ctx : Context) (render_size : ℕ)
    (shapes : List α) : List Context :=
  shapes.map (fun _ => resizeStep ctx render_size)

/-- What the save handler writes (lines 235-237): each line of
`editor.GetTextLines()` followed by a newline. -/
def renderBuffer (lines : List String) : String :=
  lines.foldl (fun acc l => acc ++ l ++ "\n") ""

/-- The observable outcome of one pass through the save handler. -/
inductive SaveEffect
  | wrote (content : String)
  | reportError
  | skip
deriving DecidableEq

/-- The save handler (lines 230-247): on Super+S, if not just saved and the
script came from a file, write the buffer (or report an error when the file
cannot be opened) and set `just_saved`; when the chord is released,
clear `just_saved`.  The handler always returns a successor state: failure
is reported, never fatal. -/
def saveHandler (from_file canOpen chord just_saved : Bool)
    (lines : List String) : Bool × SaveEffect :=
  if chord then
    if !just_saved && from_file then
      (true, if canOpen then SaveEffect.wrote (renderBuffer lines)
             else SaveEffect.reportError)
    else (just_saved, SaveEffect.skip)
  else (false, SaveEffect.skip)

/-- The save handler iterated over consecutive frames: `cs` lists the chord
state observed in each frame, `just_saved` is threaded through exactly as
the code does. -/
def saveRun (from_file canOpen : Bool) (lines : List String) :
    Bool → List Bool → List SaveEffect
  | _, [] => []
  | js, c :: cs =>
    (saveHandler from_file canOpen c js lines).2 ::
      saveRun from_file canOpen lines (saveHandler from_file canOpen c js lines).1 cs

/-- Whether a save-handler outcome actually wrote the file. -/
def isWrite : SaveEffect → Bool
  | SaveEffect.wrote _ => true
  | _ => false

end Mpr

namespace Mpr

@[simp] theorem Vec3.add_def (a b : Vec3) :
    a + b = ⟨a.x + b.x, a.y + b.y, a.z + b.z⟩ := rfl

@[simp] theorem Vec3.sub_def (a b : Vec3) :
    a - b = ⟨a.x - b.x, a.y - b.y, a.z - b.z⟩ := rfl

@[simp] theorem Vec3.smul_def (r : ℝ) (a : Vec3) :
    r • a = ⟨r * a.x, r * a.y, r * a.z⟩ := rfl

theorem mfind_isSome_iff {α : Type} (l : List (ℕ × α)) (k : ℕ) :
    (mfind l k).isSome = true ↔ k ∈ keys l := by
  induction l with
  | nil => simp [keys, mfind]
  | cons p t ih =>
    by_cases h : p.1 = k
    · simp [keys, mfind, h]
    · simp only [mfind, if_neg h, ih, keys, List.map_cons, List.mem_cons]
      have hkp : ¬ k = p.1 := fun hk => h hk.symm
      simp [hkp]

theorem mfind_eq_none_iff {α : Type} (l : List (ℕ × α)) (k : ℕ) :
    mfind l k = none ↔ k ∉ keys l := by
  rw [← mfind_isSome_iff]
  cases mfind l k <;> simp

theorem mfind_isNone_iff {α : Type} (l : List (ℕ × α)) (k : ℕ) :
    (mfind l k).isNone = true ↔ k ∉ keys l := by
  rw [← mfind_eq_none_iff]
  cases mfind l k <;> simp

theorem keys_filter {α : Type} (l : List (ℕ × α)) (f : ℕ → Bool) :
    keys (l.filter (fun p => f p.1)) = (keys l).filter f := by
  induction l with
  | nil => rfl
  | cons p t ih =>
    by_cases h : f p.1 = true <;>
      simp [keys, List.filter_cons, h] <;>
      simpa [keys] using ih

theorem keys_map_pair {α β : Type} (l : List (ℕ × α)) (g : ℕ × α → β) :
    keys (l.map (fun q => (q.1, g q))) = keys l := by
  induction l with
  | nil => rfl
  | cons p t ih => simp only [keys, List.map_cons] at ih ⊢; rw [ih]

theorem count_filter_keys {α : Type} (l : List (ℕ × α)) (f : ℕ → Bool) (k : ℕ)
    (hnd : (keys l).Nodup) :
    ((l.filter (fun p => f p.1)).map Prod.fst).count k
      = if k ∈ keys l ∧ f k then 1 else 0 := by
  have hrw : (l.filter (fun p => f p.1)).map Prod.fst = (keys l).filter f :=
    keys_filter l f
  rw [hrw]
  by_cases hm : k ∈ keys l ∧ f k = true
  · rw [if_pos hm]
    exact List.count_eq_one_of_mem (hnd.filter f) (List.mem_filter.2 ⟨hm.1, hm.2⟩)
  · rw [if_neg hm]
    refine List.count_eq_zero_of_not_mem fun hc => ?_
    exact hm ⟨(List.mem_filter.1 hc).1, (List.mem_filter.1 hc).2⟩

theorem mfind_append_of_some {α : Type} {l₁ : List (ℕ × α)} (l₂ : List (ℕ × α))
    {k : ℕ} {v : α} (h : mfind l₁ k = some v) : mfind (l₁ ++ l₂) k = some v := by
  induction l₁ with
  | nil => simp [mfind] at h
  | cons p t ih =>
    by_cases hpk : p.1 = k
    · simp only [mfind, if_pos hpk] at h
      simp [mfind, hpk, h]
    · simp only [mfind, if_neg hpk] at h
      simp [mfind, hpk, ih h]

theorem mfind_append_of_none {α : Type} {l₁ : List (ℕ × α)} (l₂ : List (ℕ × α))
    {k : ℕ} (h : mfind l₁ k = none) : mfind (l₁ ++ l₂) k = mfind l₂ k := by
  induction l₁ with
  | nil => rfl
  | cons p t ih =>
    by_cases hpk : p.1 = k
    · simp [mfind, hpk] at h
    · simp only [mfind, if_neg hpk] at h
      simp [mfind, hpk, ih h]

/-- Erasing stale entries does not disturb the binding of a still-live key. -/
theorem mfind_eraseStale {Expr Tape : Type} (owned : List (ℕ × Shape Expr Tape))
    (live : List (ℕ × Expr)) (k : ℕ) (h : k ∈ keys live) :
    mfind (eraseStale owned live) k = mfind owned k := by
  induction owned with
  | nil => rfl
  | cons p t ih =>
    by_cases hpk : p.1 = k
    · subst hpk
      have hsome : (mfind live p.1).isSome = true :=
        (mfind_isSome_iff live p.1).2 h
      simp [eraseStale, List.filter_cons, hsome, mfind]
    · by_cases hs : (mfind live p.1).isSome = true
      · simpa [eraseStale, List.filter_cons, hs, mfind, hpk] using ih
      · simpa [eraseStale, List.filter_cons, hs, mfind, hpk] using ih

/-- Looking a not-previously-owned key up among the newly created entries
finds exactly the compiled form of its live expression. -/
theorem mfind_newEntries {Expr Tape : Type} (compile : Expr → Tape)
    (owned : List (ℕ × Shape Expr Tape)) (live : List (ℕ × Expr)) (k : ℕ)
    (howned : mfind owned k = none) :
    mfind (newEntries compile owned live) k
      = (mfind live k).map (fun e => Shape.mk (compile e) e) := by
  induction live with
  | nil => rfl
  | cons q t ih =>
    by_cases hqk : q.1 = k
    · subst hqk
      have hn : (mfind owned q.1).isNone = true := by
        rw [howned]
        rfl
      simp [newEntries, List.filter_cons, hn, mfind]
    · by_cases hn : (mfind owned q.1).isNone = true
      · simpa [newEntries, List.filter_cons, hn, mfind, hqk] using ih
      · simpa [newEntries, List.filter_cons, hn, mfind, hqk] using ih

theorem mem_keys_synchronize {Expr Tape : Type} (compile : Expr → Tape)
    (owned : List (ℕ × Shape Expr Tape)) (live : List (ℕ × Expr)) (k : ℕ) :
    k ∈ keys (synchronize compile owned live) ↔ k ∈ keys live := by
  have hkeys : keys (synchronize compile owned live)
      = (keys owned).filter (fun j => (mfind live j).isSome)
        ++ (keys live).filter (fun j => (mfind owned j).isNone) := by
    show keys (eraseStale owned live ++ newEntries compile owned live) = _
    rw [keys, List.map_append]
    congr 1
    · exact keys_filter owned (fun j => (mfind live j).isSome)
    · rw [show (newEntries compile owned live).map Prod.fst
          = keys (newEntries compile owned live) from rfl]
      rw [newEntries, keys_map_pair]
      exact keys_filter live (fun j => (mfind owned j).isNone)
  rw [hkeys]
  simp only [List.mem_append, List.mem_filter]
  constructor
  · rintro (⟨_, hs⟩ | ⟨hl, _⟩)
    · exact (mfind_isSome_iff live k).1 hs
    · exact hl
  · intro hl
    by_cases ho : k ∈ keys owned
    · exact Or.inl ⟨ho, (mfind_isSome_iff live k).2 hl⟩
    · exact Or.inr ⟨hl, (mfind_isNone_iff owned k).2 ho⟩

/-- C1: synchronizer correctness.  For a transition from owned set `A` to
live set `B` (both with unique identities, as `std::map` guarantees), and any
identity `k`: the key set of the synchronized map equals `B`; a `k ∈ A \ B` is
released exactly once and never compiled; a `k ∈ B \ A` is compiled exactly
once, never released, and bound to the freshly compiled shape of its live
expression; a `k ∈ A ∩ B` is neither compiled nor released and its entry is
byte-for-byte the old one, even when the live expression bound to `k`
differs from the cached `tree`. -/
theorem synchronize_spec {Expr Tape : Type} (compile : Expr → Tape)
    (owned : List (ℕ × Shape Expr Tape)) (live : List (ℕ × Expr))
    (hA : (keys owned).Nodup) (hB : (keys live).Nodup) (k : ℕ) :
    (k ∈ keys (synchronize compile owned live) ↔ k ∈ keys live)
    ∧ (k ∈ keys owned → k ∉ keys live →
        (releasedIds owned live).count k = 1 ∧ (compiledIds owned live).count k = 0)
    ∧ (k ∉ keys owned → k ∈ keys live →
        (compiledIds owned live).count k = 1 ∧ (releasedIds owned live).count k = 0
          ∧ mfind (synchronize compile owned live) k
              = (mfind live k).map (fun e => Shape.mk (compile e) e))
    ∧ (k ∈ keys owned → k ∈ keys live →
        (releasedIds owned live).count k = 0 ∧ (compiledIds owned live).count k = 0
          ∧ mfind (synchronize compile owned live) k = mfind owned k) := by
  have hrel : (releasedIds owned live).count k
      = if k ∈ keys owned ∧ (mfind live k).isNone then 1 else 0 :=
    count_filter_keys owned (fun j => (mfind live j).isNone) k hA
  have hcomp : (compiledIds owned live).count k
      = if k ∈ keys live ∧ (mfind owned k).isNone then 1 else 0 :=
    count_filter_keys live (fun j => (mfind owned j).isNone) k hB
  refine ⟨mem_keys_synchronize compile owned live k, ?_, ?_, ?_⟩
  · intro ho hl
    constructor
    · rw [hrel, if_pos ⟨ho, (mfind_isNone_iff live k).2 hl⟩]
    · rw [hcomp, if_neg]
      intro hc
      exact hl hc.1
  · intro ho hl
    refine ⟨?_, ?_, ?_⟩
    · rw [hcomp, if_pos ⟨hl, (mfind_isNone_iff owned k).2 ho⟩]
    · rw [hrel, if_neg]
      intro hc
      exact ho hc.1
    · have hkeysE : keys (eraseStale owned live)
          = (keys owned).filter (fun j => (mfind live j).isSome) :=
        keys_filter owned (fun j => (mfind live j).isSome)
      have herase : mfind (eraseStale owned live) k = none := by
        rw [mfind_eq_none_iff, hkeysE]
        intro hc
        exact ho (List.mem_filter.1 hc).1
      rw [synchronize, mfind_append_of_none _ herase]
      exact mfind_newEntries compile owned live k ((mfind_eq_none_iff owned k).2 ho)
  · intro ho hl
    refine ⟨?_, ?_, ?_⟩
    · rw [hrel, if_neg]
      intro hc
      rw [mfind_isNone_iff] at hc
      exact hc.2 hl
    · rw [hcomp, if_neg]
      intro hc
      rw [mfind_isNone_iff] at hc
      exact hc.2 ho
    · have hsome : (mfind owned k).isSome = true := (mfind_isSome_iff owned k).2 ho
      obtain ⟨v, hv⟩ := Option.isSome_iff_exists.1 hsome
      rw [synchronize,
        mfind_append_of_some _ (by rw [mfind_eraseStale owned live k hl]; exact hv)]
      exact hv.symm

/-- Rotating by `-a` undoes rotating by `a` about the z axis. -/
theorem rotZ_neg_rotZ (a : ℝ) (v : Vec3) : rotZ (-a) (rotZ a v) = v := by
  cases v with
  | mk x y z =>
    simp only [rotZ, Real.cos_neg, Real.sin_neg, Vec3.mk.injEq]
    refine ⟨?_, ?_, trivial⟩
    · linear_combination x * Real.sin_sq_add_cos_sq a
    · linear_combination y * Real.sin_sq_add_cos_sq a

/-- Rotating by `-a` undoes rotating by `a` about the x axis. -/
theorem rotX_neg_rotX (a : ℝ) (v : Vec3) : rotX (-a) (rotX a v) = v := by
  cases v with
  | mk x y z =>
    simp only [rotX, Real.cos_neg, Real.sin_neg, Vec3.mk.injEq]
    refine ⟨trivial, ?_, ?_⟩
    · linear_combination y * Real.sin_sq_add_cos_sq a
    · linear_combination z * Real.sin_sq_add_cos_sq a

theorem inv_smul_add_smul_sub (k : ℝ) (hk : k ≠ 0) (c w : Vec3) :
    (1 / k) • (c + k • w - c) = w := by
  cases c
  cases w
  simp only [Vec3.add_def, Vec3.sub_def, Vec3.smul_def, Vec3.mk.injEq]
  refine ⟨?_, ?_, ?_⟩ <;> field_simp

/-- `specWorldOf` really is the inverse of the screen-to-world map of the code,
`worldOf`, whenever scale and display size are nondegenerate: this justifies
`specWorldOf` as a faithful rendering of the `inverse(model · view) · p`. -/
theorem specWorldOf_worldOf (vs : ViewState) (d : DisplaySize) (p : Vec3)
    (hs : vs.scale ≠ 0) (hd : max d.w d.h ≠ 0) :
    specWorldOf vs d (worldOf vs d p) = p := by
  have hsd : (2 : ℝ) / max d.w d.h ≠ 0 := div_ne_zero two_ne_zero hd
  show (let q := rotX (-vs.pitch) (rotZ (-vs.yaw)
      ((1 / vs.scale) • (worldOf vs d p - vs.center)))
    (⟨q.x / (2 / max d.w d.h) + d.w / 2,
      q.y / (-(2 / max d.w d.h)) + d.h / 2, q.z⟩ : Vec3)) = p
  have h1 : (1 / vs.scale) • (worldOf vs d p - vs.center)
      = rotZ vs.yaw (rotX vs.pitch (viewApply d p)) := by
    simp only [worldOf, modelApply]
    exact inv_smul_add_smul_sub vs.scale hs vs.center _
  simp only [h1, rotZ_neg_rotZ, rotX_neg_rotX]
  cases p with
  | mk x y z =>
    simp only [viewApply, Vec3.mk.injEq]
    refine ⟨?_, ?_, trivial⟩ <;> field_simp <;> ring

/-- The C `fmod` by a positive modulus lands strictly between `-m` and `m`
(it keeps the sign of the dividend, so the lower half of the interval really
is reachable). -/
theorem fmod_mem_Ioo (x m : ℝ) (hm : 0 < m) : fmod x m ∈ Set.Ioo (-m) m := by
  have hm0 : m ≠ 0 := ne_of_gt hm
  have hx : m * (x / m) = x := mul_div_cancel₀ x hm0
  rw [fmod, rtrunc]
  split_ifs with h
  · have h1 : ((⌊x / m⌋ : ℝ)) ≤ x / m := Int.floor_le _
    have h2 : x / m < (⌊x / m⌋ : ℝ) + 1 := Int.lt_floor_add_one _
    constructor <;> nlinarith
  · have h1 : x / m ≤ ((⌈x / m⌉ : ℝ)) := Int.le_ceil _
    have h2 : ((⌈x / m⌉ : ℝ)) < x / m + 1 := Int.ceil_lt_add_one _
    constructor <;> nlinarith

/-- C4 (counterexample): one rotate event with `dx = 100, dy = 0` from the
initial state (`yaw = 0`) leaves `yaw = -1`: `fmod` keeps the sign of the
dividend, so the resulting yaw is NOT in `[0, 2*pi)`. -/
theorem rotate_yaw_escapes_Ico :
    (rotate initView 100 0).yaw = -1
    ∧ (rotate initView 100 0).yaw ∉ Set.Ico (0 : ℝ) (2 * Real.pi) := by
  have hpi : (3 : ℝ) < Real.pi := Real.pi_gt_three
  have hq : (-1 : ℝ) / (2 * Real.pi) < 0 := by
    apply div_neg_of_neg_of_pos <;> nlinarith
  have hceil : ⌈(-1 : ℝ) / (2 * Real.pi)⌉ = 0 := by
    rw [Int.ceil_eq_zero_iff]
    constructor
    · have h2 : (0 : ℝ) < 2 * Real.pi := by nlinarith
      have h3 : (-1) / (2 * Real.pi) * (2 * Real.pi) = -1 :=
        div_mul_cancel₀ _ (ne_of_gt h2)
      nlinarith [h3, h2, hpi]
    · exact le_of_lt hq
  have hyaw : (rotate initView 100 0).yaw = -1 := by
    show fmod ((0 : ℝ) - 100 / 100) (2 * Real.pi) = -1
    rw [fmod, rtrunc]
    rw [if_neg (by norm_num; nlinarith : ¬ (0 : ℝ) ≤ (0 - 100 / 100) / (2 * Real.pi))]
    norm_num [hceil]
  refine ⟨hyaw, ?_⟩
  rw [hyaw]
  intro hmem
  have := hmem.1
  norm_num at this

/-- C4 (amended): after any sequence of rotate events starting from the
initial state (`yaw = 0`), the yaw lies in the OPEN interval
`(-2*pi, 2*pi)`: the `fmod` of the code bounds the magnitude by the modulus but
keeps the sign of the dividend, so negative yaws occur; `[0, 2*pi)` is not
maintained. -/
theorem rotateAll_yaw_mem_Ioo (events : List (ℝ × ℝ)) :
    (rotateAll initView events).yaw ∈ Set.Ioo (-(2 * Real.pi)) (2 * Real.pi) := by
  have h2pi : (0 : ℝ) < 2 * Real.pi := by positivity
  suffices h : ∀ vs : ViewState,
      vs.yaw ∈ Set.Ioo (-(2 * Real.pi)) (2 * Real.pi) →
      (rotateAll vs events).yaw ∈ Set.Ioo (-(2 * Real.pi)) (2 * Real.pi) by
    refine h initView ?_
    show (0 : ℝ) ∈ Set.Ioo (-(2 * Real.pi)) (2 * Real.pi)
    constructor <;> nlinarith
  induction events with
  | nil => exact fun vs hvs => hvs
  | cons e t ih =>
    intro vs hvs
    show (rotateAll (rotate vs e.1 e.2) t).yaw ∈ Set.Ioo (-(2 * Real.pi)) (2 * Real.pi)
    refine ih _ ?_
    have := fmod_mem_Ioo (vs.yaw - e.1 / 100) (2 * Real.pi) h2pi
    exact this

/-- C2: the world point under the cursor is invariant under zoom: for every
view state, display size, cursor position and scroll amount, `worldOf cursor`
after the zoom update equals `worldOf cursor` before it (exactly, over ℝ). -/
theorem zoom_worldOf_invariant (vs : ViewState) (d : DisplaySize)
    (cursor : Vec3) (scroll : ℝ) :
    worldOf (zoom vs d cursor scroll) d cursor = worldOf vs d cursor := by
  cases vs with
  | mk c k pi ya =>
    cases c
    simp only [zoom, zoomScaled, worldOf, modelApply, viewApply, rotZ, rotX,
      Vec3.add_def, Vec3.sub_def, Vec3.smul_def, Vec3.mk.injEq]
    refine ⟨by ring, by ring, by ring⟩

/-- C3 (amended): the pan invariance holds for the update the CODE performs, whose
`worldOf` applies `model · view` directly (no inverse): after
`pan vs d mouse drag`, the world point under screen point `mouse` equals the
world point that was under `mouse - drag` (the drag start) before — exactly,
over ℝ, for every view state, display size and drag. -/
theorem pan_worldOf_invariant (vs : ViewState) (d : DisplaySize)
    (mouse drag : Vec3) :
    worldOf (pan vs d mouse drag) d mouse = worldOf vs d (mouse - drag) := by
  cases vs with
  | mk c k pi ya =>
    cases c
    cases mouse
    cases drag
    simp only [pan, worldOf, modelApply, viewApply, rotZ, rotX,
      Vec3.add_def, Vec3.sub_def, Vec3.smul_def, Vec3.mk.injEq]
    refine ⟨by ring, by ring, by ring⟩

/-- C3 (counterexample): with `worldOf(p) = inverse(model · view) · p` as the
claim states it, the pan update does NOT keep the drag-start world point under
the pointer.  Concretely, from the state with center `0`, scale `2`,
pitch = yaw = `0`, on a `2 × 2` display, dragging by `(1,0,0)` with the mouse
at `(1,1,0)`: the world point under the drag start before and the world point
under the mouse after differ, whether "world point under `p`" is read through
the map of the code (`model · view`) or through the inverse map of the spec. -/
theorem specPan_not_invariant :
    (worldOf (specPan ⟨⟨0, 0, 0⟩, 2, 0, 0⟩ ⟨2, 2⟩ ⟨1, 1, 0⟩ ⟨1, 0, 0⟩) ⟨2, 2⟩ ⟨1, 1, 0⟩
      ≠ worldOf ⟨⟨0, 0, 0⟩, 2, 0, 0⟩ ⟨2, 2⟩ (⟨1, 1, 0⟩ - ⟨1, 0, 0⟩))
    ∧ (specWorldOf (specPan ⟨⟨0, 0, 0⟩, 2, 0, 0⟩ ⟨2, 2⟩ ⟨1, 1, 0⟩ ⟨1, 0, 0⟩) ⟨2, 2⟩ ⟨1, 1, 0⟩
      ≠ specWorldOf ⟨⟨0, 0, 0⟩, 2, 0, 0⟩ ⟨2, 2⟩ (⟨1, 1, 0⟩ - ⟨1, 0, 0⟩)) := by
  constructor
  · intro h
    have hx := congrArg Vec3.x h
    simp only [specPan, specWorldOf, worldOf, modelApply, viewApply, rotZ, rotX,
      Vec3.add_def, Vec3.sub_def, Vec3.smul_def, neg_zero,
      Real.cos_zero, Real.sin_zero] at hx
    norm_num at hx
  · intro h
    have hx := congrArg Vec3.x h
    simp only [specPan, specWorldOf, worldOf, modelApply, viewApply, rotZ, rotX,
      Vec3.add_def, Vec3.sub_def, Vec3.smul_def, neg_zero,
      Real.cos_zero, Real.sin_zero] at hx
    norm_num at hx

theorem mfind_some_mem {α : Type} {l : List (ℕ × α)} {k : ℕ} {v : α}
    (h : mfind l k = some v) : (k, v) ∈ l := by
  induction l with
  | nil => simp [mfind] at h
  | cons p t ih =>
    by_cases hpk : p.1 = k
    · cases p with
      | mk a b =>
        simp only at hpk
        subst hpk
        have hbv : b = v := by simpa [mfind] using h
        subst hbv
        exact List.mem_cons_self _ _
    · rw [mfind, if_neg hpk] at h
      exact List.mem_cons_of_mem _ (ih h)

theorem mfind_newEntriesF_none {Expr Tape : Type} (compileF : Expr → Option Tape)
    (owned : List (ℕ × Shape Expr Tape)) (live : List (ℕ × Expr)) (k : ℕ)
    (hk : k ∉ keys live) : mfind (newEntriesF compileF owned live) k = none := by
  induction live with
  | nil => rfl
  | cons q t ih =>
    have hk1 : ¬ k = q.1 ∧ k ∉ keys t := by
      simpa [keys, not_or] using hk
    rw [newEntriesF]
    split_ifs with h1
    · cases hc : compileF q.2 with
      | some tp =>
        simp only [hc]
        rw [mfind, if_neg fun hq => hk1.1 hq.symm]
        exact ih hk1.2
      | none =>
        simp only [hc]
        exact ih hk1.2
    · exact ih hk1.2

/-- With unique live identities and a not-previously-owned key `k`, the
fallible creation loop binds `k` exactly to the compiled form of its live
expression when compilation succeeds, and omits it when compilation fails. -/
theorem mfind_newEntriesF {Expr Tape : Type} (compileF : Expr → Option Tape)
    (owned : List (ℕ × Shape Expr Tape)) (live : List (ℕ × Expr)) (k : ℕ)
    (hB : (keys live).Nodup) (howned : mfind owned k = none) :
    mfind (newEntriesF compileF owned live) k
      = (mfind live k).bind (fun e => (compileF e).map (fun tp => Shape.mk tp e)) := by
  revert hB
  induction live with
  | nil => intro _; rfl
  | cons q t ih =>
    intro hB
    have hB' : q.1 ∉ keys t ∧ (keys t).Nodup := by
      simpa [keys, List.nodup_cons] using hB
    by_cases hqk : q.1 = k
    · subst hqk
      have h1 : (mfind owned q.1).isNone = true := by
        rw [howned]; rfl
      rw [newEntriesF, if_pos h1]
      cases hc : compileF q.2 with
      | some tp => simp [mfind, hc]
      | none =>
        simp only [hc]
        rw [mfind_newEntriesF_none compileF owned t q.1 hB'.1]
        simp [mfind, hc]
    · rw [newEntriesF, show mfind (q :: t) k = mfind t k from by rw [mfind, if_neg hqk]]
      split_ifs with h1
      · cases hc : compileF q.2 with
        | some tp =>
          simp only [hc]
          rw [mfind, if_neg hqk]
          exact ih hB'.2
        | none =>
          simp only [hc]
          exact ih hB'.2
      · exact ih hB'.2

theorem mem_failedIds {Expr Tape : Type} (compileF : Expr → Option Tape)
    (owned : List (ℕ × Shape Expr Tape)) (live : List (ℕ × Expr)) (f : ℕ)
    (ef : Expr) (hfo : f ∉ keys owned) (hef : mfind live f = some ef)
    (hfail : compileF ef = none) : f ∈ failedIds compileF owned live := by
  revert hef
  induction live with
  | nil => intro hef; simp [mfind] at hef
  | cons q t ih =>
    intro hef
    by_cases hqf : q.1 = f
    · subst hqf
      have hqe : q.2 = ef := by
        simpa [mfind] using hef
      have h1 : (mfind owned q.1).isNone = true := by
        rw [(mfind_eq_none_iff owned q.1).2 hfo]; rfl
      have hfail' : compileF q.2 = none := by rw [hqe]; exact hfail
      rw [failedIds, if_pos h1]
      simp only [hfail']
      exact List.mem_cons_self _ _
    · have hef' : mfind t f = some ef := by
        rw [mfind, if_neg hqf] at hef
        exact hef
      rw [failedIds]
      split_ifs with h1
      · cases hc : compileF q.2 with
        | some tp =>
          simp only [hc]
          exact ih hef'
        | none =>
          simp only [hc]
          exact List.mem_cons_of_mem _ (ih hef')
      · exact ih hef'

/-- C8: if compiling the expression of one live identity `f` fails during a
synchronization step, then `f` is reported among the failed identities and
omitted from the synchronized map, every identity owned before and still
live keeps its entry untouched, and every other new identity is still bound
to the compiled form of its own live expression. -/
theorem synchronizeF_spec {Expr Tape : Type} (compileF : Expr → Option Tape)
    (owned : List (ℕ × Shape Expr Tape)) (live : List (ℕ × Expr))
    (hB : (keys live).Nodup) (f : ℕ) (ef : Expr)
    (hfo : f ∉ keys owned) (hef : mfind live f = some ef)
    (hfail : compileF ef = none) :
    f ∈ failedIds compileF owned live
    ∧ f ∉ keys (synchronizeF compileF owned live)
    ∧ (∀ k, k ∈ keys owned → k ∈ keys live →
        mfind (synchronizeF compileF owned live) k = mfind owned k)
    ∧ (∀ k, k ∉ keys owned →
        mfind (synchronizeF compileF owned live) k
          = (mfind live k).bind (fun e => (compileF e).map (fun tp => Shape.mk tp e))) := by
  have hnew : ∀ k, k ∉ keys owned →
      mfind (synchronizeF compileF owned live) k
        = (mfind live k).bind (fun e => (compileF e).map (fun tp => Shape.mk tp e)) := by
    intro k hko
    have hkeysE : keys (eraseStale owned live)
        = (keys owned).filter (fun j => (mfind live j).isSome) :=
      keys_filter owned (fun j => (mfind live j).isSome)
    have herase : mfind (eraseStale owned live) k = none := by
      rw [mfind_eq_none_iff, hkeysE]
      intro hc
      exact hko (List.mem_filter.1 hc).1
    rw [synchronizeF, mfind_append_of_none _ herase]
    exact mfind_newEntriesF compileF owned live k hB ((mfind_eq_none_iff owned k).2 hko)
  refine ⟨mem_failedIds compileF owned live f ef hfo hef hfail, ?_, ?_, hnew⟩
  · rw [← mfind_eq_none_iff, hnew f hfo, hef]
    simp [hfail]
  · intro k hko hkl
    have hsome : (mfind owned k).isSome = true := (mfind_isSome_iff owned k).2 hko
    obtain ⟨v, hv⟩ := Option.isSome_iff_exists.1 hsome
    rw [synchronizeF,
      mfind_append_of_some _ (by rw [mfind_eraseStale owned live k hkl]; exact hv)]
    exact hv.symm

/-- Witness for C8: owned map has identity 1; the live set is 1 ↦ 99,
3 ↦ 30, 4 ↦ 40 and compilation fails exactly on expression 30.  Identity 3
is reported and omitted, identity 1 keeps its old entry, identity 4 is still
compiled and inserted. -/
theorem synchronizeF_spec_witness :
    ((keys ([(1, 99), (3, 30), (4, 40)] : List (ℕ × ℕ))).Nodup
      ∧ mfind ([(1, 99), (3, 30), (4, 40)] : List (ℕ × ℕ)) 3 = some 30
      ∧ (fun e : ℕ => if e = 30 then none else some (e + 1)) 30 = none)
    ∧ 3 ∈ failedIds (fun e : ℕ => if e = 30 then none else some (e + 1))
        ([(1, Shape.mk 11 10)] : List (ℕ × Shape ℕ ℕ)) [(1, 99), (3, 30), (4, 40)]
    ∧ 3 ∉ keys (synchronizeF (fun e : ℕ => if e = 30 then none else some (e + 1))
        ([(1, Shape.mk 11 10)] : List (ℕ × Shape ℕ ℕ)) [(1, 99), (3, 30), (4, 40)])
    ∧ mfind (synchronizeF (fun e : ℕ => if e = 30 then none else some (e + 1))
        ([(1, Shape.mk 11 10)] : List (ℕ × Shape ℕ ℕ)) [(1, 99), (3, 30), (4, 40)]) 1
      = mfind ([(1, Shape.mk 11 10)] : List (ℕ × Shape ℕ ℕ)) 1
    ∧ mfind (synchronizeF (fun e : ℕ => if e = 30 then none else some (e + 1))
        ([(1, Shape.mk 11 10)] : List (ℕ × Shape ℕ ℕ)) [(1, 99), (3, 30), (4, 40)]) 4
      = some (Shape.mk 41 40) := by
  have h := synchronizeF_spec (fun e : ℕ => if e = 30 then none else some (e + 1))
    ([(1, Shape.mk 11 10)] : List (ℕ × Shape ℕ ℕ)) [(1, 99), (3, 30), (4, 40)]
    (by decide) 3 30 (by decide) (by decide) (by decide)
  refine ⟨⟨by decide, by decide, by decide⟩, h.1, h.2.1, ?_, ?_⟩
  · exact h.2.2.1 1 (by decide) (by decide)
  · rw [h.2.2.2 4 (by decide)]
    rfl

/-- Witness for C1: the transition from owned identities 1, 2 to live
identities 1, 3 (with identity 1 bound to a live expression, 99, that differs
from its cached tree, 10): identity 2 is released exactly once, identity 3 is
compiled exactly once and inserted, identity 1 keeps its old entry with zero
compile and release calls. -/
theorem synchronize_spec_witness :
    ((keys ([(1, Shape.mk 11 10), (2, Shape.mk 21 20)] : List (ℕ × Shape ℕ ℕ))).Nodup
        ∧ (keys ([(1, 99), (3, 30)] : List (ℕ × ℕ))).Nodup)
    ∧ (releasedIds ([(1, Shape.mk 11 10), (2, Shape.mk 21 20)] : List (ℕ × Shape ℕ ℕ))
        ([(1, 99), (3, 30)] : List (ℕ × ℕ))).count 2 = 1
    ∧ (compiledIds ([(1, Shape.mk 11 10), (2, Shape.mk 21 20)] : List (ℕ × Shape ℕ ℕ))
        ([(1, 99), (3, 30)] : List (ℕ × ℕ))).count 3 = 1
    ∧ mfind (synchronize Nat.succ
        ([(1, Shape.mk 11 10), (2, Shape.mk 21 20)] : List (ℕ × Shape ℕ ℕ))
        ([(1, 99), (3, 30)] : List (ℕ × ℕ))) 3 = some (Shape.mk 31 30)
    ∧ (releasedIds ([(1, Shape.mk 11 10), (2, Shape.mk 21 20)] : List (ℕ × Shape ℕ ℕ))
        ([(1, 99), (3, 30)] : List (ℕ × ℕ))).count 1 = 0
    ∧ mfind (synchronize Nat.succ
        ([(1, Shape.mk 11 10), (2, Shape.mk 21 20)] : List (ℕ × Shape ℕ ℕ))
        ([(1, 99), (3, 30)] : List (ℕ × ℕ))) 1
      = mfind ([(1, Shape.mk 11 10), (2, Shape.mk 21 20)] : List (ℕ × Shape ℕ ℕ)) 1 := by
  have h := fun k => synchronize_spec Nat.succ
    ([(1, Shape.mk 11 10), (2, Shape.mk 21 20)] : List (ℕ × Shape ℕ ℕ))
    ([(1, 99), (3, 30)] : List (ℕ × ℕ)) (by decide) (by decide) k
  refine ⟨⟨by decide, by decide⟩, ?_, ?_, ?_, ?_, ?_⟩
  · exact ((h 2).2.1 (by decide) (by decide)).1
  · exact ((h 3).2.2.1 (by decide) (by decide)).1
  · rw [((h 3).2.2.1 (by decide) (by decide)).2.2]
    rfl
  · exact ((h 1).2.2.2 (by decide) (by decide)).1
  · exact ((h 1).2.2.2 (by decide) (by decide)).2.2

theorem replicate_true_set_zero_true (n : ℕ) :
    (List.replicate n true).set 0 true = List.replicate n true := by
  cases n <;> rfl

/-- C5: in every frame, the ordered publish calls pair each shape with its
append flag, and the flag list is `false` for the first shape and `true` for
all later ones; since the flag is a per-frame local recomputed by
`frameCalls`, this pattern holds for every frame of a run no matter what the
previous frames did. -/
theorem runFrames_append_pattern {α : Type} (frames : List (List α)) :
    runFrames frames = frames.map (fun shapes =>
      shapes.zip ((List.replicate shapes.length true).set 0 false)) := by
  have haux : ∀ (shapes : List α) (b : Bool),
      frameCallsAux b shapes
        = shapes.zip ((List.replicate shapes.length true).set 0 b) := by
    intro shapes
    induction shapes with
    | nil => intro b; rfl
    | cons s t ih =>
      intro b
      show (s, b) :: frameCallsAux true t = _
      rw [ih true, replicate_true_set_zero_true]
      rfl
  have hfc : (frameCalls : List α → List (α × Bool)) = fun shapes =>
      shapes.zip ((List.replicate shapes.length true).set 0 false) :=
    funext fun shapes => haux shapes false
  rw [runFrames, hfc]

/-- C6: the 3x3 matrix handed to `render2D` consists exactly of the top-left
2x2 block of the 4x4 model matrix, its translation column entries (0..1, 3),
its bottom-row entries (3, 0..1), and its corner entry (3, 3). -/
theorem mat2dOf_entries (mat : Matrix (Fin 4) (Fin 4) ℝ) :
    mat2dOf mat = Matrix.of
      ![![mat 0 0, mat 0 1, mat 0 3],
        ![mat 1 0, mat 1 1, mat 1 3],
        ![mat 3 0, mat 3 1, mat 3 3]] := by
  ext i j
  fin_cases i <;> fin_cases j <;> rfl

/-- C7: whenever the requested render size differs from the current
allocation, every render call of the frame receives one and the same freshly
constructed context, whose size is the requested one and whose allocation is
distinct from the old one — so nothing in the frame can read the old
buffers. -/
theorem resize_fresh {α : Type} (ctx : Context) (render_size : ℕ)
    (shapes : List α) (h : render_size ≠ ctx.image_size_px) :
    frameContexts ctx render_size shapes
        = List.replicate shapes.length (freshContext render_size ctx)
    ∧ (freshContext render_size ctx).image_size_px = render_size
    ∧ (freshContext render_size ctx).alloc_id ≠ ctx.alloc_id := by
  refine ⟨?_, rfl, ?_⟩
  · rw [frameContexts, resizeStep, if_pos h]
    induction shapes with
    | nil => rfl
    | cons s t ih =>
      simp only [List.map_cons, List.length_cons, List.replicate_succ]
      rw [ih]
  · show ctx.alloc_id + 1 ≠ ctx.alloc_id
    omega

/-- Witness for C7: a context allocated at 256 px with a request for 512 px:
both render calls of the frame get the fresh 512-px context. -/
theorem resize_fresh_witness :
    ((512 : ℕ) ≠ (Context.mk 256 7).image_size_px)
    ∧ frameContexts (Context.mk 256 7) 512 ([10, 20] : List ℕ)
        = List.replicate 2 (freshContext 512 (Context.mk 256 7))
    ∧ (freshContext 512 (Context.mk 256 7)).image_size_px = 512
    ∧ (freshContext 512 (Context.mk 256 7)).alloc_id ≠ (Context.mk 256 7).alloc_id := by
  have h := resize_fresh (Context.mk 256 7) 512 ([10, 20] : List ℕ) (by decide)
  exact ⟨by decide, h.1, h.2.1, h.2.2⟩

/-- C9: when the save chord fires (pressed, not throttled) and the script was
loaded from a file, the handler writes the rendered buffer — each editor
line followed by a newline, i.e. the buffer verbatim — when the path opens,
and reports an error when it does not; in both cases it returns a successor
state (with `just_saved` set), so the session continues. -/
theorem saveHandler_spec (from_file canOpen chord just_saved : Bool)
    (lines : List String) (hf : from_file = true) (hc : chord = true)
    (hj : just_saved = false) :
    saveHandler from_file canOpen chord just_saved lines
      = (true, if canOpen
          then SaveEffect.wrote (renderBuffer lines)
          else SaveEffect.reportError) := by
  subst hf
  subst hc
  subst hj
  rfl

/-- Witness for C9: a two-line buffer is written with each line followed by a
newline when the path opens; a failing open yields the reported error and the
handler still returns (with the throttle flag set). -/
theorem saveHandler_spec_witness :
    ((true : Bool) = true ∧ (false : Bool) = false)
    ∧ saveHandler true true true false ["line one", "line two"]
        = (true, SaveEffect.wrote "line one\nline two\n")
    ∧ saveHandler true false true false ["line one"]
        = (true, SaveEffect.reportError) := by
  refine ⟨⟨rfl, rfl⟩, ?_, ?_⟩
  · rw [saveHandler_spec true true true false ["line one", "line two"] rfl rfl rfl]
    decide
  · rw [saveHandler_spec true false true false ["line one"] rfl rfl rfl]
    decide

/-- Index characterization of the iterated save handler when the script came
from a file: frame `t` writes exactly when the path opens, the chord is held
at `t`, and it was not held at `t - 1` (a rising edge; the handler throttles
on `just_saved`, which after a frame equals the chord state of that frame). -/
theorem saveRun_isWrite_getD (canOpen : Bool) (lines : List String) :
    ∀ (cs : List Bool) (js : Bool) (t : ℕ),
      isWrite ((saveRun true canOpen lines js cs).getD t SaveEffect.skip)
        = (canOpen && cs.getD t false
            && !(if t = 0 then js else cs.getD (t - 1) false)) := by
  intro cs
  induction cs with
  | nil => intro js t; simp [saveRun, isWrite]
  | cons c cs' ih =>
    intro js t
    have hstate : (saveHandler true canOpen c js lines).1 = c := by
      cases c <;> cases js <;> rfl
    match t with
    | 0 =>
      show isWrite (saveHandler true canOpen c js lines).2 = _
      cases c <;> cases js <;> cases canOpen <;> rfl
    | Nat.succ u =>
      show isWrite ((saveRun true canOpen lines
          (saveHandler true canOpen c js lines).1 cs').getD u SaveEffect.skip) = _
      rw [hstate, ih c u]
      match u with
      | 0 => rfl
      | Nat.succ w => rfl

theorem saveRun_no_file (canOpen : Bool) (lines : List String) :
    ∀ (cs : List Bool) (js : Bool),
      saveRun false canOpen lines js cs = cs.map (fun _ => SaveEffect.skip) := by
  intro cs
  induction cs with
  | nil => intro js; rfl
  | cons c cs' ih =>
    intro js
    show (saveHandler false canOpen c js lines).2 :: saveRun false canOpen lines _ cs'
        = SaveEffect.skip :: cs'.map (fun _ => SaveEffect.skip)
    rw [ih]
    cases c <;> cases js <;> rfl

/-- C10: across consecutive frames, two writes of the script file at
positions `i < j` of a run force a strictly intermediate frame at which the
chord was observed released; and when the script was not loaded from a file,
no frame ever writes (or even attempts to), whatever the chord does. -/
theorem save_write_throttle (canOpen : Bool) (lines : List String)
    (cs : List Bool) (i j : ℕ) (hij : i < j)
    (hi : isWrite ((saveRun true canOpen lines false cs).getD i SaveEffect.skip) = true)
    (hj : isWrite ((saveRun true canOpen lines false cs).getD j SaveEffect.skip) = true) :
    (∃ k, i < k ∧ k < j ∧ cs.getD k false = false)
    ∧ (∀ js, saveRun false canOpen lines js cs
        = cs.map (fun _ => SaveEffect.skip)) := by
  rw [saveRun_isWrite_getD canOpen lines cs false i] at hi
  rw [saveRun_isWrite_getD canOpen lines cs false j] at hj
  refine ⟨?_, fun js => saveRun_no_file canOpen lines cs js⟩
  have hj0 : j ≠ 0 := by omega
  rw [if_neg hj0] at hj
  have hcj : cs.getD (j - 1) false = false := by
    rcases Bool.eq_false_or_eq_true (cs.getD (j - 1) false) with h | h
    · rw [h] at hj
      simp at hj
    · exact h
  have hci : cs.getD i false = true := by
    rcases Bool.eq_false_or_eq_true (cs.getD i false) with h | h
    · exact h
    · rw [h] at hi
      simp at hi
  refine ⟨j - 1, ?_, by omega, hcj⟩
  rcases Nat.lt_or_ge i (j - 1) with h | h
  · exact h
  · exfalso
    have : i = j - 1 := by omega
    rw [this, hcj] at hci
    exact Bool.false_ne_true hci

/-- Witness for C10: chord held in frames 0 and 1, released in frame 2, held
again in frame 3: writes occur at frames 0 and 3, and frame 2 is the
released frame between them; with no file loaded the same chord sequence
produces no effect at all. -/
theorem save_write_throttle_witness :
    ((0 : ℕ) < 3
      ∧ isWrite ((saveRun true true ["x"] false [true, true, false, true]).getD 0
          SaveEffect.skip) = true
      ∧ isWrite ((saveRun true true ["x"] false [true, true, false, true]).getD 3
          SaveEffect.skip) = true)
    ∧ ((∃ k, 0 < k ∧ k < 3 ∧ ([true, true, false, true] : List Bool).getD k false = false)
      ∧ (∀ js, saveRun false true ["x"] js [true, true, false, true]
          = ([true, true, false, true] : List Bool).map (fun _ => SaveEffect.skip))) := by
  refine ⟨⟨by decide, by decide, by decide⟩, ?_⟩
  exact save_write_throttle true ["x"] [true, true, false, true] 0 3
    (by decide) (by decide) (by decide)

end Mpr
